import Mathlib

/-!
Verification of a brute-force travelling-salesman program.

The program builds a symmetric Euclidean distance matrix from a list of
2-D points (`calculate_edge_grid`) and then exhaustively enumerates all
Hamiltonian cycles anchored at city 0 (`traverse`, driven by
`brute_force`), keeping a running minimum initialised to `f32::MAX`.

The search is embedded with `Option`-valued results so that the panicking
out-of-bounds indexing of the source becomes `none`; arithmetic on `f32`
is idealised as arithmetic in a linear ordered field.
-/

namespace TSP

structure Point where
  x : ℕ
  y : ℕ

/-- `const MAP_WIDTH: u16 = 100;` -/
def MAP_WIDTH : ℕ := 100

/-- The signed intermediate computation `dx*dx + dy*dy` of
`calculate_edge_grid`, with `dx = points[i].x as i16 - points[j].x as i16`
and similarly `dy`, carried out in `ℤ`. This is the no-overflow
idealisation of the source's `i16` arithmetic; `sqDist16` below models the
16-bit arithmetic exactly, and the two agree whenever the coordinates
respect the `MAP_WIDTH` bound (see `sqDist16_eq_sqDist`). -/
def sqDist (p q : Point) : ℤ :=
  ((p.x : ℤ) - (q.x : ℤ)) * ((p.x : ℤ) - (q.x : ℤ)) +
    ((p.y : ℤ) - (q.y : ℤ)) * ((p.y : ℤ) - (q.y : ℤ))

/-- Two's-complement wrap of an integer into the `i16` range
`[-32768, 32767]`: the effect of Rust's `as i16` cast and of wrapping
`i16` arithmetic (release mode; in debug mode an overflowing operation
panics instead of wrapping, so on overflow the source produces no value
at all). -/
def wrap16 (z : ℤ) : ℤ := (z + 32768) % 65536 - 32768

/-- The intermediate `dx*dx + dy*dy` of `calculate_edge_grid` with the
source's `i16` arithmetic modelled faithfully: the `u16 → i16` casts and
every arithmetic step wrap into the `i16` range. -/
def sqDist16 (p q : Point) : ℤ :=
  let dx := wrap16 (wrap16 (p.x : ℤ) - wrap16 (q.x : ℤ))
  let dy := wrap16 (wrap16 (p.y : ℤ) - wrap16 (q.y : ℤ))
  wrap16 (wrap16 (dx * dx) + wrap16 (dy * dy))

/-- `calculate_edge_grid`: an `n × n` grid, zero-initialised; for `i < j`
the entry `(i,j)` is set to `sqrt(dx*dx + dy*dy)` and mirrored into
`(j,i)`; the diagonal keeps its initial `0`. The intermediate uses the
idealised `sqDist`; `calculate_edge_grid16` below uses the faithful
16-bit `sqDist16`, and the two agree under the `MAP_WIDTH` coordinate
bound (see `ceg16_eq_ceg`). -/
noncomputable def calculate_edge_grid (points : List Point) : List (List ℝ) :=
  (List.range points.length).map fun i =>
    (List.range points.length).map fun j =>
      if i < j then Real.sqrt ((sqDist (points.getD i ⟨0, 0⟩) (points.getD j ⟨0, 0⟩) : ℤ) : ℝ)
      else if j < i then Real.sqrt ((sqDist (points.getD j ⟨0, 0⟩) (points.getD i ⟨0, 0⟩) : ℤ) : ℝ)
      else 0

/-- `calculate_edge_grid` with the faithful wrapping `i16` intermediate
`sqDist16` (release-mode semantics of the source). -/
noncomputable def calculate_edge_grid16 (points : List Point) : List (List ℝ) :=
  (List.range points.length).map fun i =>
    (List.range points.length).map fun j =>
      if i < j then Real.sqrt ((sqDist16 (points.getD i ⟨0, 0⟩) (points.getD j ⟨0, 0⟩) : ℤ) : ℝ)
      else if j < i then Real.sqrt ((sqDist16 (points.getD j ⟨0, 0⟩) (points.getD i ⟨0, 0⟩) : ℤ) : ℝ)
      else 0

section Search

variable {α : Type} [LinearOrderedField α]

/-- `f32::MAX`, the sentinel initial minimum, i.e. `(2 - 2⁻²³) · 2¹²⁷`. -/
def f32MAX : α := 340282346638528859811704183484516925440

/-- Total read of `grid[i][j]`, defaulting to `0` out of bounds
(used to state what values the search compares). -/
def entry (grid : List (List α)) (i j : ℕ) : α := (grid.getD i []).getD j 0

/-- The indexing `grid[i][j]` of the source; out of bounds is `none`
(a panic in the source). -/
def idx (grid : List (List α)) (i j : ℕ) : Option α := do
  let row ← grid[i]?
  row[j]?

/-- Length of the closed tour through `c`: the closing edge
`grid[c[0]][c[last]]` plus the sum of the consecutive edges of `c`,
exactly as the base case of `traverse` computes it. -/
def tourLen (grid : List (List α)) (c : List ℕ) : α :=
  entry grid (c.headD 0) (c.getLastD 0) +
    ((c.zip c.tail).map fun e => entry grid e.1 e.2).sum

/-- The sum of the consecutive edges of `c` (the loop of the base case
of `traverse`). -/
def consecSum (grid : List (List α)) (c : List ℕ) : α :=
  ((c.zip c.tail).map fun e => entry grid e.1 e.2).sum

/-- The matrix is an `n × n` grid. -/
def WFGrid (grid : List (List α)) (n : ℕ) : Prop :=
  grid.length = n ∧ ∀ row ∈ grid, row.length = n

/-- `traverse`: if `pending` is nonempty, loop over its elements, moving
each in turn to the end of `visited` and recursing with the current
running minimum; otherwise score the complete permutation `visited` and
keep it only if strictly below the running minimum. -/
def traverse (visited pending : List ℕ) (m : α) (grid : List (List α)) :
    Option α :=
  if pending.isEmpty then do
    let first ← visited[0]?
    let last ← visited[visited.length - 1]?
    let closing ← idx grid first last
    let steps ← (visited.zip visited.tail).mapM fun e => idx grid e.1 e.2
    let total := closing + steps.sum
    pure (if total < m then total else m)
  else
    pending.attach.foldlM
      (fun mn c => do
        let localMin ← traverse (visited ++ [c.1]) (pending.filter fun x => x ≠ c.1) mn grid
        pure (if localMin < mn then localMin else mn))
      m
termination_by pending.length
decreasing_by
  exact List.length_filter_lt_length_iff_exists.mpr ⟨c.1, c.2, by simp⟩

/-- `brute_force`: run `traverse` from `visited = [0]`,
`pending = (1..n).collect()`, `min = f32::MAX`. -/
def brute_force (grid : List (List α)) : Option α :=
  traverse [0] (List.range' 1 (grid.length - 1)) f32MAX grid

/-- One iteration of the sibling loop of `traverse`: recurse after moving
`c` from `pending` to the end of `visited`, then fold the recursive
result into the running minimum (strict comparison). -/
def sibStep (visited pending : List ℕ) (grid : List (List α)) (mn : α)
    (c : {x // x ∈ pending}) : Option α := do
  let localMin ← traverse (visited ++ [c.1]) (pending.filter fun x => x ≠ c.1) mn grid
  pure (if localMin < mn then localMin else mn)

/-- Number of base-case (leaf) evaluations performed by `traverse` below
a state with the given `pending` set; mirrors the recursion of
`traverse`. -/
def leafCount (pending : List ℕ) : ℕ :=
  if pending.isEmpty then 1
  else
    pending.attach.foldl
      (fun acc c => acc + leafCount (pending.filter fun x => x ≠ c.1)) 0
termination_by pending.length
decreasing_by
  exact List.length_filter_lt_length_iff_exists.mpr ⟨c.1, c.2, by simp⟩

/-- Recursion depth of `traverse` below a state with the given `pending`
set (a leaf counts as depth 1); mirrors the recursion of `traverse`. -/
def recDepth (pending : List ℕ) : ℕ :=
  if pending.isEmpty then 1
  else
    pending.attach.foldl
      (fun acc c => max acc (1 + recDepth (pending.filter fun x => x ≠ c.1))) 1
termination_by pending.length
decreasing_by
  exact List.length_filter_lt_length_iff_exists.mpr ⟨c.1, c.2, by simp⟩

/-- The transition of the search: one recursive call of `traverse` moves
one city `c` of `pending` to the end of `visited` and removes it from
`pending`. -/
inductive Step : List ℕ × List ℕ → List ℕ × List ℕ → Prop where
  | move (visited pending : List ℕ) (c : ℕ) (hc : c ∈ pending) :
      Step (visited, pending) (visited ++ [c], pending.filter fun x => x ≠ c)

/-- A Hamiltonian cycle of `n` cities, written as the list of cities in
visiting order: a permutation of `0, …, n-1`. -/
def IsHamCycle (n : ℕ) (c : List ℕ) : Prop := c.Perm (List.range n)

/-- The base case of `traverse` in isolation: score the complete
permutation `visited` against the running minimum `m`. -/
def baseCase (visited : List ℕ) (m : α) (grid : List (List α)) : Option α := do
  let first ← visited[0]?
  let last ← visited[visited.length - 1]?
  let closing ← idx grid first last
  let steps ← (visited.zip visited.tail).mapM fun e => idx grid e.1 e.2
  let total := closing + steps.sum
  pure (if total < m then total else m)

lemma traverse_nil (visited : List ℕ) (m : α) (grid : List (List α)) :
    traverse visited [] m grid = baseCase visited m grid := by
  rw [traverse]
  rfl

lemma traverse_of_ne_nil (visited pending : List ℕ) (m : α)
    (grid : List (List α)) (h : pending ≠ []) :
    traverse visited pending m grid =
      pending.attach.foldlM (sibStep visited pending grid) m := by
  rw [traverse]
  rw [if_neg (by simp [h])]
  rfl

lemma idx_eq_entry {grid : List (List α)} {n i j : ℕ} (hg : WFGrid grid n)
    (hi : i < n) (hj : j < n) : idx grid i j = some (entry grid i j) := by
  obtain ⟨hlen, hrow⟩ := hg
  have hi' : i < grid.length := by omega
  have hrowlen : grid[i].length = n := hrow _ (grid.getElem_mem hi')
  have hj' : j < grid[i].length := by omega
  rw [idx, List.getElem?_eq_getElem hi']
  show grid[i][j]? = some (entry grid i j)
  rw [List.getElem?_eq_getElem hj']
  rw [entry, List.getD_eq_getElem?_getD, List.getD_eq_getElem?_getD,
    List.getElem?_eq_getElem hi', Option.getD_some, List.getElem?_eq_getElem hj',
    Option.getD_some]

lemma mapM_eq_some_map {β γ : Type} (f : β → Option γ) (g : β → γ)
    (L : List β) (h : ∀ e ∈ L, f e = some (g e)) : L.mapM f = some (L.map g) := by
  induction L with
  | nil => rfl
  | cons a t ih =>
    rw [List.mapM_cons, h a (List.mem_cons_self a t),
      ih fun e he => h e (List.mem_cons_of_mem a he)]
    rfl

lemma getElem?_zero_of_ne_nil {v : List ℕ} (h : v ≠ []) :
    v[0]? = some (v.headD 0) := by
  cases v with
  | nil => exact absurd rfl h
  | cons a t => simp

lemma getElem?_last_of_ne_nil {v : List ℕ} (h : v ≠ []) :
    v[v.length - 1]? = some (v.getLastD 0) := by
  rw [← List.getLast?_eq_getElem?, List.getLastD_eq_getLast?]
  cases hv : v.getLast? with
  | none => exact absurd (List.getLast?_eq_none_iff.mp hv) h
  | some a => rfl

lemma headD_mem {v : List ℕ} (h : v ≠ []) : v.headD 0 ∈ v := by
  cases v with
  | nil => exact absurd rfl h
  | cons a t => exact List.mem_cons_self a t

lemma getLastD_mem {v : List ℕ} (h : v ≠ []) : v.getLastD 0 ∈ v := by
  cases v with
  | nil => exact absurd rfl h
  | cons a t =>
    clear h
    induction t generalizing a with
    | nil => exact List.mem_cons_self a []
    | cons b t' ih =>
      rw [List.getLastD_cons]
      exact List.mem_cons_of_mem a (ih b)

lemma traverse_nil_eq {grid : List (List α)} {n : ℕ} (hg : WFGrid grid n)
    {v : List ℕ} (hv : ∀ x ∈ v, x < n) (hne : v ≠ []) (m : α) :
    traverse v [] m grid =
      some (if tourLen grid v < m then tourLen grid v else m) := by
  have hzip : ∀ e ∈ v.zip v.tail, idx grid e.1 e.2 = some (entry grid e.1 e.2) := by
    intro e he
    obtain ⟨h1, h2⟩ := List.of_mem_zip he
    exact idx_eq_entry hg (hv _ h1) (hv _ (List.mem_of_mem_tail h2))
  rw [traverse_nil, baseCase, getElem?_zero_of_ne_nil hne, getElem?_last_of_ne_nil hne]
  simp only [Option.bind_eq_bind, Option.some_bind]
  rw [idx_eq_entry hg (hv _ (headD_mem hne)) (hv _ (getLastD_mem hne))]
  simp only [Option.some_bind]
  rw [mapM_eq_some_map _ (fun e => entry grid e.1 e.2) _ hzip]
  simp only [Option.some_bind]
  rfl

lemma baseCase_le {v : List ℕ} {m r : α} {g : List (List α)}
    (h : baseCase v m g = some r) : r ≤ m := by
  rw [baseCase] at h
  simp only [Option.bind_eq_bind, Option.bind_eq_some, Option.pure_def,
    Option.some.injEq] at h
  obtain ⟨f1, -, l1, -, c1, -, s1, -, hr⟩ := h
  by_cases hlt : c1 + s1.sum < m
  · rw [if_pos hlt] at hr
    exact hr ▸ le_of_lt hlt
  · rw [if_neg hlt] at hr
    exact hr ▸ le_refl m

lemma sibStep_le {v p : List ℕ} {g : List (List α)} {mn x : α}
    {c : {y // y ∈ p}} (h : sibStep v p g mn c = some x) : x ≤ mn := by
  rw [sibStep] at h
  simp only [Option.bind_eq_bind, Option.bind_eq_some, Option.pure_def,
    Option.some.injEq] at h
  obtain ⟨lm, -, hr⟩ := h
  by_cases hlt : lm < mn
  · rw [if_pos hlt] at hr
    exact hr ▸ le_of_lt hlt
  · rw [if_neg hlt] at hr
    exact hr ▸ le_refl mn

lemma foldlM_le {β : Type} (f : α → β → Option α)
    (hf : ∀ s a x, f s a = some x → x ≤ s) :
    ∀ (l : List β) (s r : α), l.foldlM f s = some r → r ≤ s := by
  intro l
  induction l with
  | nil =>
    intro s r h
    rw [List.foldlM_nil] at h
    cases h
    exact le_refl _
  | cons a t ih =>
    intro s r h
    rw [List.foldlM_cons] at h
    simp only [Option.bind_eq_bind, Option.bind_eq_some] at h
    obtain ⟨s', hs', hrest⟩ := h
    exact le_trans (ih s' r hrest) (hf s a s' hs')

lemma traverse_le {v p : List ℕ} {m r : α} {g : List (List α)}
    (h : traverse v p m g = some r) : r ≤ m := by
  cases p with
  | nil =>
    rw [traverse_nil] at h
    exact baseCase_le h
  | cons a t =>
    rw [traverse_of_ne_nil _ _ _ _ (List.cons_ne_nil a t)] at h
    exact foldlM_le _ (fun s c x hx => sibStep_le hx) _ _ _ h

lemma filter_ne_eq_erase {l : List ℕ} (h : l.Nodup) (a : ℕ) :
    (l.filter fun x => x ≠ a) = l.erase a := by
  have hfun : (fun x : ℕ => decide (x ≠ a)) = fun x => x != a := by
    funext x
    by_cases hx : x = a <;> simp [hx]
  rw [List.Nodup.erase_eq_filter h a, ← hfun]

lemma perm_cons_decomp {p q : List ℕ} {c : ℕ} (h : (c :: q).Perm p) :
    c ∈ p ∧ q.Perm (p.erase c) := by
  have hc : c ∈ p := h.subset (List.mem_cons_self c q)
  exact ⟨hc, (h.trans (List.perm_cons_erase hc)).cons_inv⟩

lemma perm_cons_comp {p q : List ℕ} {c : ℕ} (hc : c ∈ p)
    (h : q.Perm (p.erase c)) : (c :: q).Perm p :=
  (h.cons c).trans (List.perm_cons_erase hc).symm

lemma traverse_min_spec {g : List (List α)} {n : ℕ} (hg : WFGrid g n) :
    ∀ (k : ℕ) (p v : List ℕ) (m : α), p.length = k → p.Nodup →
      (∀ x ∈ p, x < n) → (∀ x ∈ v, x < n) → v ≠ [] →
      ∃ r, traverse v p m g = some r ∧
        (∀ q, q.Perm p → r ≤ tourLen g (v ++ q)) ∧
        (r = m ∨ ∃ q, q.Perm p ∧ r = tourLen g (v ++ q)) := by
  intro k
  induction k using Nat.strong_induction_on with
  | _ k IH =>
  intro p v m hk hnd hp hv hne
  by_cases hpe : p = []
  · subst hpe
    refine ⟨if tourLen g v < m then tourLen g v else m,
      traverse_nil_eq hg hv hne m, ?_, ?_⟩
    · intro q hq
      rw [List.Perm.eq_nil hq, List.append_nil]
      by_cases hlt : tourLen g v < m
      · rw [if_pos hlt]
      · rw [if_neg hlt]
        exact le_of_not_lt hlt
    · by_cases hlt : tourLen g v < m
      · right
        exact ⟨[], List.Perm.refl [], by rw [if_pos hlt, List.append_nil]⟩
      · left
        rw [if_neg hlt]
  · have inner : ∀ (l : List {x // x ∈ p}) (m : α),
        ∃ r, l.foldlM (sibStep v p g) m = some r ∧
          (∀ c ∈ l, ∀ q, q.Perm (p.erase c.1) → r ≤ tourLen g (v ++ c.1 :: q)) ∧
          (r = m ∨ ∃ c ∈ l, ∃ q, q.Perm (p.erase c.1) ∧
            r = tourLen g (v ++ c.1 :: q)) := by
      intro l
      induction l with
      | nil =>
        intro m
        refine ⟨m, rfl, by simp, Or.inl rfl⟩
      | cons c l ihl =>
        intro m
        have hcp : c.1 ∈ p := c.2
        have hfe : (p.filter fun x => x ≠ c.1) = p.erase c.1 :=
          filter_ne_eq_erase hnd c.1
        have hlen : (p.erase c.1).length < k := by
          rw [← hk, ← hfe]
          exact List.length_filter_lt_length_iff_exists.mpr ⟨c.1, hcp, by simp⟩
        have hv' : ∀ x ∈ v ++ [c.1], x < n := by
          intro x hx
          rcases List.mem_append.mp hx with h1 | h1
          · exact hv x h1
          · rw [List.mem_singleton] at h1
            exact h1 ▸ hp c.1 hcp
        obtain ⟨r1, hr1, hub1, hre1⟩ := IH (p.erase c.1).length hlen
          (p.erase c.1) (v ++ [c.1]) m rfl (hnd.erase c.1)
          (fun x hx => hp x (List.mem_of_mem_erase hx)) hv' (by simp)
        have hstep : sibStep v p g m c = some (if r1 < m then r1 else m) := by
          rw [sibStep, hfe, hr1]
          rfl
        obtain ⟨r, hr, hub, hre⟩ := ihl (if r1 < m then r1 else m)
        refine ⟨r, ?_, ?_, ?_⟩
        · rw [List.foldlM_cons, hstep]
          simpa using hr
        · intro c' hc' q hq
          rcases List.mem_cons.mp hc' with rfl | hc'l
          · have h1 : r ≤ if r1 < m then r1 else m :=
              foldlM_le _ (fun s a x hx => sibStep_le hx) _ _ _ hr
            have h2 : (if r1 < m then r1 else m) ≤ r1 := by
              by_cases hlt : r1 < m
              · rw [if_pos hlt]
              · rw [if_neg hlt]
                exact le_of_not_lt hlt
            have h3 : r1 ≤ tourLen g ((v ++ [c'.1]) ++ q) := hub1 q hq
            rw [List.append_assoc] at h3
            exact le_trans h1 (le_trans h2 h3)
          · exact hub c' hc'l q hq
        · rcases hre with hrm' | ⟨c', hc'l, q, hq, hrq⟩
          · rw [hrm']
            by_cases hlt : r1 < m
            · rw [if_pos hlt]
              rcases hre1 with h1 | ⟨q, hq, hrq⟩
              · exact absurd (h1 ▸ hlt) (lt_irrefl m)
              · right
                refine ⟨c, List.mem_cons_self c l, q, hq, ?_⟩
                rw [hrq, List.append_assoc]
                rfl
            · rw [if_neg hlt]
              left
              rfl
          · right
            exact ⟨c', List.mem_cons_of_mem c hc'l, q, hq, hrq⟩
    obtain ⟨r, hr, hub, hre⟩ := inner p.attach m
    refine ⟨r, ?_, ?_, ?_⟩
    · rw [traverse_of_ne_nil v p m g hpe]
      exact hr
    · intro q hq
      cases q with
      | nil => exact absurd (List.Perm.eq_nil hq.symm) hpe
      | cons c q' =>
        obtain ⟨hcp, hq'⟩ := perm_cons_decomp hq
        exact hub ⟨c, hcp⟩ (List.mem_attach p ⟨c, hcp⟩) q' hq'
    · rcases hre with h | ⟨c, -, q, hq, hrq⟩
      · left
        exact h
      · right
        exact ⟨c.1 :: q, perm_cons_comp c.2 hq, hrq⟩

lemma tourLen_eq_consecSum (g : List (List α)) (c : List ℕ) :
    tourLen g c = entry g (c.headD 0) (c.getLastD 0) + consecSum g c := rfl

lemma consecSum_cons₂ (g : List (List α)) (x y : ℕ) (t : List ℕ) :
    consecSum g (x :: y :: t) = entry g x y + consecSum g (y :: t) := by
  rw [consecSum, consecSum]
  rfl

lemma consecSum_concat (g : List (List α)) :
    ∀ (t : List ℕ) (b a : ℕ),
      consecSum g ((b :: t) ++ [a]) =
        consecSum g (b :: t) + entry g ((b :: t).getLastD 0) a := by
  intro t
  induction t with
  | nil =>
    intro b a
    simp [consecSum]
  | cons c t' ih =>
    intro b a
    have h1 : (b :: c :: t') ++ [a] = b :: c :: (t' ++ [a]) := rfl
    rw [h1, consecSum_cons₂, show c :: (t' ++ [a]) = (c :: t') ++ [a] from rfl,
      ih c a, consecSum_cons₂, List.getLastD_cons, List.getLastD_cons,
      List.getLastD_cons]
    ring

lemma tourLen_rotate_single {g : List (List α)}
    (hsymm : ∀ i j, entry g i j = entry g j i) (a b : ℕ) (t : List ℕ) :
    tourLen g (a :: b :: t) = tourLen g ((b :: t) ++ [a]) := by
  rw [tourLen_eq_consecSum, tourLen_eq_consecSum, consecSum_concat,
    consecSum_cons₂]
  have hhead : ((b :: t) ++ [a]).headD 0 = b := rfl
  have hlast : ((b :: t) ++ [a]).getLastD 0 = a := List.getLastD_concat 0 a _
  rw [hhead, hlast]
  simp only [List.headD_cons, List.getLastD_cons]
  rw [hsymm a (t.getLastD b), hsymm a b]
  ring

lemma tourLen_rotate_one {g : List (List α)}
    (hsymm : ∀ i j, entry g i j = entry g j i) (c : List ℕ) :
    tourLen g (c.rotate 1) = tourLen g c := by
  cases c with
  | nil => rfl
  | cons a l =>
    cases l with
    | nil =>
      rw [List.rotate_cons_succ, List.rotate_zero]
      rfl
    | cons b t =>
      have h1 : (a :: b :: t).rotate 1 = (b :: t) ++ [a] := by
        rw [List.rotate_cons_succ, List.rotate_zero]
      rw [h1, ← tourLen_rotate_single hsymm a b t]

lemma tourLen_rotate {g : List (List α)}
    (hsymm : ∀ i j, entry g i j = entry g j i) (c : List ℕ) (k : ℕ) :
    tourLen g (c.rotate k) = tourLen g c := by
  induction k with
  | zero => rw [List.rotate_zero]
  | succ k ih =>
    have h1 : c.rotate (k + 1) = (c.rotate k).rotate 1 := by
      rw [List.rotate_rotate]
    rw [h1, tourLen_rotate_one hsymm, ih]

lemma range_eq_cons {n : ℕ} (hn : 1 ≤ n) :
    List.range n = 0 :: List.range' 1 (n - 1) := by
  obtain ⟨m, rfl⟩ : ∃ m, n = m + 1 := ⟨n - 1, by omega⟩
  rw [List.range_eq_range', List.range'_succ]
  norm_num

lemma ham_cycle_anchor {n : ℕ} (hn : 1 ≤ n) {c : List ℕ}
    (hc : IsHamCycle n c) :
    ∃ t k, c.rotate k = 0 :: t ∧ t.Perm (List.range' 1 (n - 1)) := by
  have h0 : (0 : ℕ) ∈ c := hc.mem_iff.mpr (List.mem_range.mpr (by omega))
  obtain ⟨s, t₂, hst⟩ := List.append_of_mem h0
  refine ⟨t₂ ++ s, s.length, ?_, ?_⟩
  · rw [hst, List.rotate_eq_drop_append_take (by simp), List.drop_left,
      List.take_left]
    rfl
  · have h2 : ((0 :: t₂) ++ s).Perm (s ++ 0 :: t₂) := List.perm_append_comm
    rw [← hst] at h2
    have h3 := h2.trans hc
    rw [range_eq_cons hn] at h3
    exact List.Perm.cons_inv h3

lemma entry_eq_zero_of_out {g : List (List α)} {n : ℕ} (hg : WFGrid g n)
    {i j : ℕ} (h : n ≤ i ∨ n ≤ j) : entry g i j = 0 := by
  obtain ⟨hlen, hrow⟩ := hg
  by_cases hi : i < g.length
  · have h1 : g.getD i [] = g[i] := by
      rw [List.getD_eq_getElem?_getD, List.getElem?_eq_getElem hi,
        Option.getD_some]
    have h2 : g[i].length = n := hrow _ (List.getElem_mem hi)
    have hj : n ≤ j := by
      rcases h with h | h
      · omega
      · exact h
    rw [entry, h1, List.getD_eq_default _ _ (by omega)]
  · have h1 : g.getD i [] = [] := List.getD_eq_default _ _ (by omega)
    rw [entry, h1]
    simp

lemma symm_of_bounded {g : List (List α)} {n : ℕ} (hg : WFGrid g n)
    (h : ∀ i < n, ∀ j < n, entry g i j = entry g j i) :
    ∀ i j, entry g i j = entry g j i := by
  intro i j
  by_cases hi : i < n
  · by_cases hj : j < n
    · exact h i hi j hj
    · rw [entry_eq_zero_of_out hg (Or.inr (by omega)),
        entry_eq_zero_of_out hg (Or.inl (by omega))]
  · rw [entry_eq_zero_of_out hg (Or.inl (by omega)),
      entry_eq_zero_of_out hg (Or.inr (by omega))]

lemma mem_range'_lt {n x : ℕ} (hx : x ∈ List.range' 1 (n - 1)) : x < n := by
  obtain ⟨i, hi, rfl⟩ := List.mem_range'.mp hx
  omega

lemma brute_force_isLeast_of {g : List (List α)} {n : ℕ} (hn : 2 ≤ n)
    (hg : WFGrid g n) (hsymm : ∀ i j, entry g i j = entry g j i)
    (hlt : ∃ c, IsHamCycle n c ∧ tourLen g c < f32MAX) :
    ∃ r, brute_force g = some r ∧
      IsLeast {L | ∃ c, IsHamCycle n c ∧ tourLen g c = L} r := by
  have hnd : (List.range' 1 (n - 1)).Nodup := List.nodup_range' 1 (n - 1)
  have hvb : ∀ x ∈ [0], x < n := by
    intro x hx
    rw [List.mem_singleton] at hx
    omega
  obtain ⟨r, htr, hub, hre⟩ := traverse_min_spec hg (List.range' 1 (n - 1)).length
    (List.range' 1 (n - 1)) [0] f32MAX rfl hnd (fun x hx => mem_range'_lt hx)
    hvb (List.cons_ne_nil 0 [])
  have hbf : brute_force g = some r := by
    rw [brute_force, hg.1]
    exact htr
  have hlb : ∀ c, IsHamCycle n c → r ≤ tourLen g c := by
    intro c hc
    obtain ⟨t, k, hrot, htp⟩ := ham_cycle_anchor (by omega) hc
    have h1 : tourLen g c = tourLen g (0 :: t) := by
      rw [← hrot, tourLen_rotate hsymm]
    rw [h1]
    exact hub t htp
  obtain ⟨c₀, hc₀, hlt₀⟩ := hlt
  have hrlt : r < f32MAX := lt_of_le_of_lt (hlb c₀ hc₀) hlt₀
  rcases hre with hrm | ⟨q, hq, hrq⟩
  · rw [hrm] at hrlt
    exact absurd hrlt (lt_irrefl _)
  · refine ⟨r, hbf, ⟨0 :: q, ?_, hrq.symm⟩, ?_⟩
    · rw [IsHamCycle, range_eq_cons (by omega : 1 ≤ n)]
      exact hq.cons 0
    · intro L hL
      obtain ⟨c, hc, rfl⟩ := hL
      exact hlb c hc

lemma foldl_add_eq_sum {β : Type} (f : β → ℕ) :
    ∀ (l : List β) (s : ℕ),
      l.foldl (fun acc c => acc + f c) s = s + (l.map f).sum := by
  intro l
  induction l with
  | nil => intro s; simp
  | cons a t ih =>
    intro s
    rw [List.foldl_cons, ih, List.map_cons, List.sum_cons]
    omega

lemma foldl_max_le {β : Type} (f : β → ℕ) (B : ℕ) :
    ∀ (l : List β) (s : ℕ), s ≤ B → (∀ c ∈ l, f c ≤ B) →
      l.foldl (fun acc c => max acc (f c)) s ≤ B := by
  intro l
  induction l with
  | nil => intro s hs _; exact hs
  | cons a t ih =>
    intro s hs hf
    rw [List.foldl_cons]
    exact ih _ (max_le hs (hf a (List.mem_cons_self a t)))
      fun c hc => hf c (List.mem_cons_of_mem a hc)

lemma leafCount_nil : leafCount [] = 1 := by
  rw [leafCount]
  rfl

lemma leafCount_of_ne_nil (p : List ℕ) (h : p ≠ []) :
    leafCount p =
      p.attach.foldl
        (fun acc c => acc + leafCount (p.filter fun x => x ≠ c.1)) 0 := by
  rw [leafCount, if_neg (by simp [h])]

lemma leafCount_eq_factorial :
    ∀ (k : ℕ) (p : List ℕ), p.length = k → p.Nodup →
      leafCount p = Nat.factorial k := by
  intro k
  induction k using Nat.strong_induction_on with
  | _ k IH =>
  intro p hk hnd
  by_cases hpe : p = []
  · subst hpe
    rw [leafCount_nil, ← hk]
    rfl
  · have hk1 : 1 ≤ k := by
      rcases Nat.eq_zero_or_pos k with h | h
      · exact absurd (List.length_eq_zero.mp (h ▸ hk)) hpe
      · exact h
    rw [leafCount_of_ne_nil p hpe, foldl_add_eq_sum, Nat.zero_add]
    have hval : ∀ c ∈ p.attach,
        leafCount (p.filter fun x => x ≠ c.1) = Nat.factorial (k - 1) := by
      intro c _
      rw [filter_ne_eq_erase hnd c.1]
      exact IH (k - 1) (by omega) _
        (by rw [List.length_erase_of_mem c.2, hk]) (hnd.erase c.1)
    rw [List.map_congr_left hval, List.map_const', List.sum_replicate,
      List.length_attach, hk, smul_eq_mul]
    rw [show k = (k - 1) + 1 by omega, Nat.factorial_succ]
    norm_num

lemma recDepth_le :
    ∀ (k : ℕ) (p : List ℕ), p.length = k → recDepth p ≤ k + 1 := by
  intro k
  induction k using Nat.strong_induction_on with
  | _ k IH =>
  intro p hk
  by_cases hpe : p = []
  · subst hpe
    rw [recDepth]
    simp
  · rw [recDepth, if_neg (by simp [hpe])]
    apply foldl_max_le _ _ _ _ (by omega)
    intro c _
    have hlt : (p.filter fun x => x ≠ c.1).length < k := by
      rw [← hk]
      exact List.length_filter_lt_length_iff_exists.mpr ⟨c.1, c.2, by simp⟩
    have := IH _ hlt (p.filter fun x => x ≠ c.1) rfl
    omega

lemma consecSum_eq_sum_range (g : List (List α)) :
    ∀ (v : List ℕ), consecSum g v =
      ∑ i ∈ Finset.range (v.length - 1), entry g (v.getD i 0) (v.getD (i + 1) 0) := by
  intro v
  induction v with
  | nil => rfl
  | cons a t ih =>
    cases t with
    | nil => rfl
    | cons b t' =>
      rw [consecSum_cons₂, ih]
      rw [show (a :: b :: t').length - 1 = ((b :: t').length - 1) + 1 by simp,
        Finset.sum_range_succ']
      have h1 : ∀ i ∈ Finset.range ((b :: t').length - 1),
          entry g ((a :: b :: t').getD (i + 1) 0) ((a :: b :: t').getD (i + 1 + 1) 0)
            = entry g ((b :: t').getD i 0) ((b :: t').getD (i + 1) 0) := by
        intro i _
        rw [List.getD_cons_succ, List.getD_cons_succ]
      rw [Finset.sum_congr rfl h1]
      have h2 : entry g ((a :: b :: t').getD 0 0) ((a :: b :: t').getD 1 0)
          = entry g a b := rfl
      rw [h2]
      ring

end Search

lemma getD_map_range {β : Type} (f : ℕ → β) {n i : ℕ} (hi : i < n) (d : β) :
    ((List.range n).map f).getD i d = f i := by
  rw [List.getD_eq_getElem?_getD, List.getElem?_map, List.getElem?_range hi]
  rfl

lemma sqDist_comm (p q : Point) : sqDist p q = sqDist q p := by
  rw [sqDist, sqDist]
  ring

lemma sqDist_self (p : Point) : sqDist p p = 0 := by
  rw [sqDist]
  ring

lemma sqDist_nonneg (p q : Point) : 0 ≤ sqDist p q := by
  have h1 := mul_self_nonneg ((p.x : ℤ) - (q.x : ℤ))
  have h2 := mul_self_nonneg ((p.y : ℤ) - (q.y : ℤ))
  rw [sqDist]
  omega

lemma ceg_length (points : List Point) :
    (calculate_edge_grid points).length = points.length := by
  rw [calculate_edge_grid, List.length_map, List.length_range]

lemma ceg_WF (points : List Point) :
    WFGrid (calculate_edge_grid points) points.length := by
  refine ⟨ceg_length points, ?_⟩
  intro row hrow
  rw [calculate_edge_grid] at hrow
  obtain ⟨i, _, rfl⟩ := List.mem_map.mp hrow
  rw [List.length_map, List.length_range]

lemma ceg_entry {points : List Point} {i j : ℕ}
    (hi : i < points.length) (hj : j < points.length) :
    entry (calculate_edge_grid points) i j =
      Real.sqrt ((sqDist (points.getD i ⟨0, 0⟩) (points.getD j ⟨0, 0⟩) : ℤ) : ℝ) := by
  rw [entry, calculate_edge_grid, getD_map_range _ hi, getD_map_range _ hj]
  rcases lt_trichotomy i j with h | h | h
  · rw [if_pos h]
  · subst h
    rw [if_neg (lt_irrefl i), if_neg (lt_irrefl i), sqDist_self]
    norm_num
  · rw [if_neg (by omega), if_pos h, sqDist_comm]

section Search2

variable {α : Type} [LinearOrderedField α]

lemma perm_pair {c : List ℕ} {a b : ℕ} (h : c.Perm [a, b]) :
    c = [a, b] ∨ c = [b, a] := by
  have hlen : c.length = 2 := by rw [h.length_eq]; rfl
  cases c with
  | nil => simp at hlen
  | cons x t =>
    cases t with
    | nil => simp at hlen
    | cons y t' =>
      cases t' with
      | cons z t'' => simp at hlen
      | nil =>
        have hx : x ∈ [a, b] := h.subset (List.mem_cons_self x [y])
        rcases List.mem_pair.mp hx with hxa | hxb
        · have h2 : [y].Perm [b] := by
            rw [hxa] at h
            exact h.cons_inv
          have hy : y = b :=
            List.mem_singleton.mp (h2.subset (List.mem_cons_self y []))
          left
          rw [hxa, hy]
        · have h2 : [y].Perm [a] := by
            rw [hxb] at h
            exact (h.trans (List.Perm.swap b a [])).cons_inv
          have hy : y = a :=
            List.mem_singleton.mp (h2.subset (List.mem_cons_self y []))
          right
          rw [hxb, hy]

lemma reachable_invariant_aux {n : ℕ} (hn : 1 ≤ n) {s : List ℕ × List ℕ}
    (h : Relation.ReflTransGen Step ([0], List.range' 1 (n - 1)) s) :
    (s.1 ++ s.2).Perm (List.range n) ∧ s.1 ≠ [] ∧ s.1.headD 0 = 0 := by
  induction h with
  | refl =>
    refine ⟨?_, List.cons_ne_nil 0 [], rfl⟩
    rw [range_eq_cons hn]
    exact List.Perm.refl _
  | tail hab hbc ih =>
    obtain ⟨hperm, hne, hhead⟩ := ih
    cases hbc with
    | move v p c hc =>
      have hndall : (v ++ p).Nodup :=
        (hperm.nodup_iff).mpr (List.nodup_range n)
      have hnd : p.Nodup := ((List.nodup_append.mp hndall).2).1
      have hfe : (p.filter fun x => x ≠ c) = p.erase c := filter_ne_eq_erase hnd c
      refine ⟨?_, by simp, ?_⟩
      · show ((v ++ [c]) ++ (p.filter fun x => x ≠ c)).Perm (List.range n)
        rw [hfe, List.append_assoc]
        have h1 : (c :: p.erase c).Perm p := (List.perm_cons_erase hc).symm
        exact ((h1.append_left v)).trans hperm
      · show (v ++ [c]).headD 0 = 0
        cases v with
        | nil => exact absurd rfl hne
        | cons a t => exact hhead

lemma sqDist_cast (p q : Point) :
    ((sqDist p q : ℤ) : ℝ) =
      ((p.x : ℝ) - (q.x : ℝ)) ^ 2 + ((p.y : ℝ) - (q.y : ℝ)) ^ 2 := by
  rw [sqDist]
  push_cast
  ring

lemma ceg_symm (points : List Point) :
    ∀ i j, entry (calculate_edge_grid points) i j =
      entry (calculate_edge_grid points) j i := by
  apply symm_of_bounded (ceg_WF points)
  intro i hi j hj
  rw [ceg_entry hi hj, ceg_entry hj hi, sqDist_comm]

lemma ceg_diag (points : List Point) :
    ∀ i, entry (calculate_edge_grid points) i i = 0 := by
  intro i
  by_cases hi : i < points.length
  · rw [ceg_entry hi hi, sqDist_self]
    norm_num
  · exact entry_eq_zero_of_out (ceg_WF points) (Or.inl (by omega))

end Search2

lemma wrap16_eq_of_bounds {z : ℤ} (h1 : -32768 ≤ z) (h2 : z ≤ 32767) :
    wrap16 z = z := by
  rw [wrap16, Int.emod_eq_of_lt (by omega) (by omega)]
  omega

lemma sqDist16_eq_sqDist {p q : Point}
    (hpx : p.x ≤ MAP_WIDTH) (hpy : p.y ≤ MAP_WIDTH)
    (hqx : q.x ≤ MAP_WIDTH) (hqy : q.y ≤ MAP_WIDTH) :
    sqDist16 p q = sqDist p q := by
  rw [MAP_WIDTH] at hpx hpy hqx hqy
  simp only [sqDist16, sqDist]
  rw [wrap16_eq_of_bounds (by omega) (by omega : (p.x : ℤ) ≤ 32767),
    wrap16_eq_of_bounds (by omega) (by omega : (q.x : ℤ) ≤ 32767),
    wrap16_eq_of_bounds (by omega) (by omega : (p.y : ℤ) ≤ 32767),
    wrap16_eq_of_bounds (by omega) (by omega : (q.y : ℤ) ≤ 32767),
    wrap16_eq_of_bounds (by omega) (by omega : (p.x : ℤ) - (q.x : ℤ) ≤ 32767),
    wrap16_eq_of_bounds (by omega) (by omega : (p.y : ℤ) - (q.y : ℤ) ≤ 32767)]
  have hxx0 : 0 ≤ ((p.x : ℤ) - (q.x : ℤ)) * ((p.x : ℤ) - (q.x : ℤ)) :=
    mul_self_nonneg _
  have hyy0 : 0 ≤ ((p.y : ℤ) - (q.y : ℤ)) * ((p.y : ℤ) - (q.y : ℤ)) :=
    mul_self_nonneg _
  have hxx : ((p.x : ℤ) - (q.x : ℤ)) * ((p.x : ℤ) - (q.x : ℤ)) ≤ 10000 := by
    nlinarith
  have hyy : ((p.y : ℤ) - (q.y : ℤ)) * ((p.y : ℤ) - (q.y : ℤ)) ≤ 10000 := by
    nlinarith
  rw [wrap16_eq_of_bounds (by omega)
      (by omega : ((p.x : ℤ) - (q.x : ℤ)) * ((p.x : ℤ) - (q.x : ℤ)) ≤ 32767),
    wrap16_eq_of_bounds (by omega)
      (by omega : ((p.y : ℤ) - (q.y : ℤ)) * ((p.y : ℤ) - (q.y : ℤ)) ≤ 32767)]
  exact wrap16_eq_of_bounds (by omega) (by omega)

lemma ceg16_eq_ceg {points : List Point}
    (hb : ∀ pt ∈ points, pt.x ≤ MAP_WIDTH ∧ pt.y ≤ MAP_WIDTH) :
    calculate_edge_grid16 points = calculate_edge_grid points := by
  have hbD : ∀ k, k < points.length →
      (points.getD k ⟨0, 0⟩).x ≤ MAP_WIDTH ∧
        (points.getD k ⟨0, 0⟩).y ≤ MAP_WIDTH := by
    intro k hk
    have hmem : points.getD k ⟨0, 0⟩ ∈ points := by
      rw [List.getD_eq_getElem?_getD, List.getElem?_eq_getElem hk,
        Option.getD_some]
      exact List.getElem_mem hk
    exact hb _ hmem
  rw [calculate_edge_grid16, calculate_edge_grid]
  apply List.map_congr_left
  intro i hi
  apply List.map_congr_left
  intro j hj
  rw [List.mem_range] at hi hj
  obtain ⟨hix, hiy⟩ := hbD i hi
  obtain ⟨hjx, hjy⟩ := hbD j hj
  rw [sqDist16_eq_sqDist hix hiy hjx hjy, sqDist16_eq_sqDist hjx hjy hix hiy]

/-- Claim C2 fails as stated: with no coordinate bound the source's `i16`
intermediate overflows. At the points `(0,0)` and `(200,0)` the faithful
16-bit model has `dx*dx = 40000` wrap to `-25536` (the source panics in
debug mode, or takes `sqrt` of a negative in release mode), so entry
`(0,1)` is not the Euclidean distance `sqrt((0-200)^2 + (0-0)^2) = 200`. -/
theorem calculate_edge_grid_overflow_counterexample :
    ¬ (entry (calculate_edge_grid16 [⟨0, 0⟩, ⟨200, 0⟩]) 0 1 =
      Real.sqrt (((([⟨0, 0⟩, ⟨200, 0⟩].getD 0 ⟨0, 0⟩ : Point).x : ℝ) -
          (([⟨0, 0⟩, ⟨200, 0⟩].getD 1 ⟨0, 0⟩ : Point).x : ℝ)) ^ 2 +
        ((([⟨0, 0⟩, ⟨200, 0⟩].getD 0 ⟨0, 0⟩ : Point).y : ℝ) -
          (([⟨0, 0⟩, ⟨200, 0⟩].getD 1 ⟨0, 0⟩ : Point).y : ℝ)) ^ 2)) := by
  have hsd : sqDist16 ⟨0, 0⟩ ⟨200, 0⟩ = -25536 := by decide
  have hL : entry (calculate_edge_grid16 [⟨0, 0⟩, ⟨200, 0⟩]) 0 1 = 0 := by
    rw [entry, calculate_edge_grid16,
      getD_map_range _ (by decide : (0 : ℕ) < ([⟨0, 0⟩, ⟨200, 0⟩] : List Point).length),
      getD_map_range _ (by decide : (1 : ℕ) < ([⟨0, 0⟩, ⟨200, 0⟩] : List Point).length),
      if_pos (by omega : (0 : ℕ) < 1)]
    rw [show ([⟨0, 0⟩, ⟨200, 0⟩] : List Point).getD 0 ⟨0, 0⟩ = ⟨0, 0⟩ from rfl,
      show ([⟨0, 0⟩, ⟨200, 0⟩] : List Point).getD 1 ⟨0, 0⟩ = ⟨200, 0⟩ from rfl,
      hsd]
    exact Real.sqrt_eq_zero_of_nonpos (by norm_num)
  have hR : Real.sqrt (((([⟨0, 0⟩, ⟨200, 0⟩].getD 0 ⟨0, 0⟩ : Point).x : ℝ) -
          (([⟨0, 0⟩, ⟨200, 0⟩].getD 1 ⟨0, 0⟩ : Point).x : ℝ)) ^ 2 +
        ((([⟨0, 0⟩, ⟨200, 0⟩].getD 0 ⟨0, 0⟩ : Point).y : ℝ) -
          (([⟨0, 0⟩, ⟨200, 0⟩].getD 1 ⟨0, 0⟩ : Point).y : ℝ)) ^ 2) = 200 := by
    rw [show ([⟨0, 0⟩, ⟨200, 0⟩] : List Point).getD 0 ⟨0, 0⟩ = ⟨0, 0⟩ from rfl,
      show ([⟨0, 0⟩, ⟨200, 0⟩] : List Point).getD 1 ⟨0, 0⟩ = ⟨200, 0⟩ from rfl]
    rw [show ((((⟨0, 0⟩ : Point).x : ℝ) - ((⟨200, 0⟩ : Point).x : ℝ)) ^ 2 +
        (((⟨0, 0⟩ : Point).y : ℝ) - ((⟨200, 0⟩ : Point).y : ℝ)) ^ 2) =
        200 ^ 2 by norm_num]
    exact Real.sqrt_sq (by norm_num)
  intro h
  rw [hL, hR] at h
  norm_num at h

/-- Claim C2 (amended): for every list of `n` points whose coordinates
respect the `MAP_WIDTH` bound (the program's precondition, keeping the
`i16` intermediate from overflowing), the faithfully modelled
`calculate_edge_grid` agrees with its no-overflow idealisation and
returns an `n × n` matrix whose entry `(i,j)` is
`sqrt((x_i-x_j)^2 + (y_i-y_j)^2)`; the matrix is symmetric and every
diagonal entry is exactly zero. -/
theorem calculate_edge_grid_spec (points : List Point)
    (hb : ∀ pt ∈ points, pt.x ≤ MAP_WIDTH ∧ pt.y ≤ MAP_WIDTH) (i j : ℕ)
    (hi : i < points.length) (hj : j < points.length) :
    calculate_edge_grid16 points = calculate_edge_grid points ∧
    (calculate_edge_grid16 points).length = points.length ∧
    (∀ row ∈ calculate_edge_grid16 points, row.length = points.length) ∧
    entry (calculate_edge_grid16 points) i j =
      Real.sqrt ((((points.getD i ⟨0, 0⟩).x : ℝ) - ((points.getD j ⟨0, 0⟩).x : ℝ)) ^ 2 +
        (((points.getD i ⟨0, 0⟩).y : ℝ) - ((points.getD j ⟨0, 0⟩).y : ℝ)) ^ 2) ∧
    (∀ a b, entry (calculate_edge_grid16 points) a b =
      entry (calculate_edge_grid16 points) b a) ∧
    (∀ a, entry (calculate_edge_grid16 points) a a = 0) := by
  have hagree : calculate_edge_grid16 points = calculate_edge_grid points :=
    ceg16_eq_ceg hb
  rw [hagree]
  refine ⟨rfl, ceg_length points, (ceg_WF points).2, ?_, ceg_symm points,
    ceg_diag points⟩
  rw [ceg_entry hi hj, sqDist_cast]

/-- Witness for C2 at the two points `(0,0)` and `(3,4)`. -/
theorem calculate_edge_grid_spec_witness :
    calculate_edge_grid16 [⟨0, 0⟩, ⟨3, 4⟩] = calculate_edge_grid [⟨0, 0⟩, ⟨3, 4⟩] ∧
    (calculate_edge_grid16 [⟨0, 0⟩, ⟨3, 4⟩]).length =
      ([⟨0, 0⟩, ⟨3, 4⟩] : List Point).length ∧
    (∀ row ∈ calculate_edge_grid16 [⟨0, 0⟩, ⟨3, 4⟩],
      row.length = ([⟨0, 0⟩, ⟨3, 4⟩] : List Point).length) ∧
    entry (calculate_edge_grid16 [⟨0, 0⟩, ⟨3, 4⟩]) 0 1 =
      Real.sqrt (((([⟨0, 0⟩, ⟨3, 4⟩].getD 0 ⟨0, 0⟩ : Point).x : ℝ) -
          (([⟨0, 0⟩, ⟨3, 4⟩].getD 1 ⟨0, 0⟩ : Point).x : ℝ)) ^ 2 +
        ((([⟨0, 0⟩, ⟨3, 4⟩].getD 0 ⟨0, 0⟩ : Point).y : ℝ) -
          (([⟨0, 0⟩, ⟨3, 4⟩].getD 1 ⟨0, 0⟩ : Point).y : ℝ)) ^ 2) ∧
    (∀ a b, entry (calculate_edge_grid16 [⟨0, 0⟩, ⟨3, 4⟩]) a b =
      entry (calculate_edge_grid16 [⟨0, 0⟩, ⟨3, 4⟩]) b a) ∧
    (∀ a, entry (calculate_edge_grid16 [⟨0, 0⟩, ⟨3, 4⟩]) a a = 0) :=
  calculate_edge_grid_spec [⟨0, 0⟩, ⟨3, 4⟩] (by decide) 0 1 (by decide) (by decide)

/-- Claim C9: for coordinates bounded by `MAP_WIDTH = 100`, the signed
intermediate computation `dx*dx + dy*dy` of `calculate_edge_grid` fits in
`i16`: each squared difference and their sum lie within `[-32768, 32767]`. -/
theorem sqDist_no_overflow (p q : Point)
    (hpx : p.x ≤ MAP_WIDTH) (hpy : p.y ≤ MAP_WIDTH)
    (hqx : q.x ≤ MAP_WIDTH) (hqy : q.y ≤ MAP_WIDTH) :
    ((p.x : ℤ) - (q.x : ℤ)) * ((p.x : ℤ) - (q.x : ℤ)) ≤ 32767 ∧
    ((p.y : ℤ) - (q.y : ℤ)) * ((p.y : ℤ) - (q.y : ℤ)) ≤ 32767 ∧
    -32768 ≤ sqDist p q ∧ sqDist p q ≤ 32767 := by
  rw [MAP_WIDTH] at hpx hpy hqx hqy
  have hx1 : ((p.x : ℤ) - (q.x : ℤ)) ≤ 100 := by omega
  have hx2 : -100 ≤ ((p.x : ℤ) - (q.x : ℤ)) := by omega
  have hy1 : ((p.y : ℤ) - (q.y : ℤ)) ≤ 100 := by omega
  have hy2 : -100 ≤ ((p.y : ℤ) - (q.y : ℤ)) := by omega
  have hxx : ((p.x : ℤ) - (q.x : ℤ)) * ((p.x : ℤ) - (q.x : ℤ)) ≤ 10000 := by
    nlinarith
  have hyy : ((p.y : ℤ) - (q.y : ℤ)) * ((p.y : ℤ) - (q.y : ℤ)) ≤ 10000 := by
    nlinarith
  have hnn := sqDist_nonneg p q
  rw [sqDist] at *
  refine ⟨by omega, by omega, by omega, by omega⟩

/-- Witness for C9 at the points `(3,4)` and `(100,0)`. -/
theorem sqDist_no_overflow_witness :
    (((3 : ℕ) : ℤ) - ((100 : ℕ) : ℤ)) * (((3 : ℕ) : ℤ) - ((100 : ℕ) : ℤ)) ≤ 32767 ∧
    (((4 : ℕ) : ℤ) - ((0 : ℕ) : ℤ)) * (((4 : ℕ) : ℤ) - ((0 : ℕ) : ℤ)) ≤ 32767 ∧
    -32768 ≤ sqDist ⟨3, 4⟩ ⟨100, 0⟩ ∧ sqDist ⟨3, 4⟩ ⟨100, 0⟩ ≤ 32767 :=
  sqDist_no_overflow ⟨3, 4⟩ ⟨100, 0⟩ (by decide) (by decide) (by decide) (by decide)

/-- Claim C3: in the base case of `traverse` (empty `pending`) the tour
length is the closing edge `grid[visited[0]][visited[last]]` plus the sum
of the `n-1` consecutive edges of `visited`, and it replaces the running
minimum only when strictly smaller (ties keep the old minimum). -/
theorem traverse_base_case {α : Type} [LinearOrderedField α]
    {g : List (List α)} {n : ℕ} (hg : WFGrid g n) (v : List ℕ)
    (hv : ∀ x ∈ v, x < n) (hne : v ≠ []) (m : α) :
    traverse v [] m g =
      some (if entry g (v.headD 0) (v.getLastD 0) +
          ∑ i ∈ Finset.range (v.length - 1),
            entry g (v.getD i 0) (v.getD (i + 1) 0) < m
        then entry g (v.headD 0) (v.getLastD 0) +
          ∑ i ∈ Finset.range (v.length - 1),
            entry g (v.getD i 0) (v.getD (i + 1) 0)
        else m) ∧
    (tourLen g v = m → traverse v [] m g = some m) := by
  have hT : tourLen g v = entry g (v.headD 0) (v.getLastD 0) +
      ∑ i ∈ Finset.range (v.length - 1),
        entry g (v.getD i 0) (v.getD (i + 1) 0) := by
    rw [tourLen_eq_consecSum, consecSum_eq_sum_range]
  constructor
  · rw [traverse_nil_eq hg hv hne m, hT]
  · intro he
    rw [traverse_nil_eq hg hv hne m, he, if_neg (lt_irrefl m)]

/-- Witness for C3 on the 2×2 grid `[[0,1],[1,0]]`, `visited = [0,1]`,
running minimum `5`. -/
theorem traverse_base_case_witness :
    (traverse [0, 1] [] (5 : ℚ) [[0, 1], [1, 0]] =
      some (if entry ([[0, 1], [1, 0]] : List (List ℚ))
            (([0, 1] : List ℕ).headD 0) (([0, 1] : List ℕ).getLastD 0) +
          ∑ i ∈ Finset.range (([0, 1] : List ℕ).length - 1),
            entry ([[0, 1], [1, 0]] : List (List ℚ))
              (([0, 1] : List ℕ).getD i 0) (([0, 1] : List ℕ).getD (i + 1) 0) < 5
        then entry ([[0, 1], [1, 0]] : List (List ℚ))
            (([0, 1] : List ℕ).headD 0) (([0, 1] : List ℕ).getLastD 0) +
          ∑ i ∈ Finset.range (([0, 1] : List ℕ).length - 1),
            entry ([[0, 1], [1, 0]] : List (List ℚ))
              (([0, 1] : List ℕ).getD i 0) (([0, 1] : List ℕ).getD (i + 1) 0)
        else 5)) ∧
    (tourLen ([[0, 1], [1, 0]] : List (List ℚ)) [0, 1] = 5 →
      traverse [0, 1] [] (5 : ℚ) [[0, 1], [1, 0]] = some 5) :=
  traverse_base_case ⟨rfl, by simp⟩ [0, 1] (by decide) (by decide) 5

/-- Claim C4: the search evaluates exactly `(n-1)!` complete tours for `n`
cities; for `n = 1` a single trivial tour of length `0`, for `n = 2` a
single tour of length `2 × distance(0,1)`. -/
theorem leaf_evaluations {α : Type} [LinearOrderedField α] (n : ℕ)
    (hn : 1 ≤ n) (g : List (List α)) (hdiag : entry g 0 0 = 0) :
    leafCount (List.range' 1 (n - 1)) = Nat.factorial (n - 1) ∧
    (n = 1 → leafCount (List.range' 1 (n - 1)) = 1 ∧ tourLen g [0] = 0) ∧
    (n = 2 → leafCount (List.range' 1 (n - 1)) = 1 ∧
      tourLen g [0, 1] = 2 * entry g 0 1) := by
  refine ⟨leafCount_eq_factorial (n - 1) _ (by simp) (List.nodup_range' 1 (n - 1)), ?_, ?_⟩
  · intro h1
    subst h1
    refine ⟨leafCount_nil, ?_⟩
    simp [tourLen, hdiag]
  · intro h2
    subst h2
    constructor
    · exact leafCount_eq_factorial 1 _ (by simp) (List.nodup_range' 1 1)
    · simp [tourLen, entry]
      ring

/-- Witness for C4 at `n = 3` with the 1×1 grid `[[0]]`. -/
theorem leaf_evaluations_witness :
    leafCount (List.range' 1 (3 - 1)) = Nat.factorial (3 - 1) ∧
    (3 = 1 → leafCount (List.range' 1 (3 - 1)) = 1 ∧
      tourLen ([[0]] : List (List ℚ)) [0] = 0) ∧
    (3 = 2 → leafCount (List.range' 1 (3 - 1)) = 1 ∧
      tourLen ([[0]] : List (List ℚ)) [0, 1] =
        2 * entry ([[0]] : List (List ℚ)) 0 1) :=
  leaf_evaluations 3 (by decide) [[0]] (by simp [entry])

/-- Claim C5: on a well-formed `n × n` matrix with `n ≥ 1` the search
terminates with a finite minimum (at most the `f32::MAX` sentinel), its
recursion depth is bounded by `n`, and every recursive call strictly
shrinks `pending`. -/
theorem search_terminates {α : Type} [LinearOrderedField α]
    {g : List (List α)} {n : ℕ} (hn : 1 ≤ n) (hg : WFGrid g n) :
    (∃ r, brute_force g = some r ∧ r ≤ f32MAX) ∧
    recDepth (List.range' 1 (n - 1)) ≤ n ∧
    (∀ (p : List ℕ) (c : ℕ), c ∈ p →
      (p.filter fun x => x ≠ c).length < p.length) := by
  refine ⟨?_, ?_, ?_⟩
  · obtain ⟨r, htr, -, -⟩ := traverse_min_spec hg (List.range' 1 (n - 1)).length
      (List.range' 1 (n - 1)) [0] f32MAX rfl (List.nodup_range' 1 (n - 1))
      (fun x hx => mem_range'_lt hx)
      (fun x hx => by rw [List.mem_singleton] at hx; omega)
      (List.cons_ne_nil 0 [])
    refine ⟨r, ?_, traverse_le htr⟩
    rw [brute_force, hg.1]
    exact htr
  · have := recDepth_le (n - 1) (List.range' 1 (n - 1)) (by simp)
    omega
  · intro p c hc
    exact List.length_filter_lt_length_iff_exists.mpr ⟨c, hc, by simp⟩

/-- Witness for C5 on the 1×1 grid `[[0]]`. -/
theorem search_terminates_witness :
    (∃ r, brute_force ([[0]] : List (List ℚ)) = some r ∧ r ≤ f32MAX) ∧
    recDepth (List.range' 1 (1 - 1)) ≤ 1 ∧
    (∀ (p : List ℕ) (c : ℕ), c ∈ p →
      (p.filter fun x => x ≠ c).length < p.length) :=
  search_terminates (by decide) ⟨rfl, by simp⟩

/-- Claim C6: the running minimum never increases: whatever `traverse`
returns is at most the minimum it was given, and one sibling step either
keeps the running minimum or strictly decreases it. -/
theorem running_min_monotone {α : Type} [LinearOrderedField α] :
    (∀ (v p : List ℕ) (m : α) (g : List (List α)) (r : α),
      traverse v p m g = some r → r ≤ m) ∧
    (∀ (v p : List ℕ) (g : List (List α)) (mn : α) (c : {x // x ∈ p}) (x : α),
      sibStep v p g mn c = some x → x = mn ∨ x < mn) := by
  constructor
  · intro v p m g r h
    exact traverse_le h
  · intro v p g mn c x h
    rcases lt_or_eq_of_le (sibStep_le h) with h1 | h1
    · right
      exact h1
    · left
      exact h1

/-- Witness for C6: a concrete run on the 1×1 grid `[[0]]` with initial
minimum `5` returns `0 ≤ 5`. -/
theorem running_min_monotone_witness :
    traverse [0] [] (5 : ℚ) [[0]] = some 0 ∧ (0 : ℚ) ≤ 5 := by
  have heval : traverse [0] [] (5 : ℚ) [[0]] = some 0 := by
    rw [@traverse_nil_eq ℚ _ [[0]] 1 ⟨rfl, by simp⟩ [0] (by decide) (by decide) 5]
    norm_num [tourLen, entry]
  exact ⟨heval, (running_min_monotone).1 [0] [] 5 [[0]] 0 heval⟩

/-- Claim C7: every state reachable from `(visited = [0], pending = {1..n-1})`
satisfies the partial-tour invariant, and every transition moves exactly
one city from `pending` to the end of `visited`. -/
theorem partial_tour_invariant (n : ℕ) (hn : 1 ≤ n) (v p : List ℕ)
    (h : Relation.ReflTransGen Step ([0], List.range' 1 (n - 1)) (v, p)) :
    v.Nodup ∧ p.Nodup ∧ (∀ x ∈ v, x ∉ p) ∧
    (v ++ p).Perm (List.range n) ∧ v.length + p.length = n ∧
    v ≠ [] ∧ v.headD 0 = 0 ∧
    (∀ s t, Step s t →
      ∃ c ∈ s.2, t.1 = s.1 ++ [c] ∧ t.2 = s.2.filter fun x => x ≠ c) := by
  obtain ⟨hperm, hne, hhead⟩ := reachable_invariant_aux hn h
  have hnodup : (v ++ p).Nodup := (hperm.nodup_iff).mpr (List.nodup_range n)
  obtain ⟨h1, h2, h3⟩ := List.nodup_append.mp hnodup
  have hlen : v.length + p.length = n := by
    have hl := hperm.length_eq
    rw [List.length_append, List.length_range] at hl
    exact hl
  refine ⟨h1, h2, fun x hx hxp => h3 hx hxp, hperm, hlen, hne, hhead, ?_⟩
  intro s t hst
  cases hst with
  | move v' p' c hc => exact ⟨c, hc, rfl, rfl⟩

/-- Witness for C7: the initial state itself at `n = 2`. -/
theorem partial_tour_invariant_witness :
    ([0] : List ℕ).Nodup ∧ ([1] : List ℕ).Nodup ∧ (∀ x ∈ ([0] : List ℕ), x ∉ ([1] : List ℕ)) ∧
    (([0] : List ℕ) ++ [1]).Perm (List.range 2) ∧
    ([0] : List ℕ).length + ([1] : List ℕ).length = 2 ∧
    ([0] : List ℕ) ≠ [] ∧ ([0] : List ℕ).headD 0 = 0 ∧
    (∀ s t, Step s t →
      ∃ c ∈ s.2, t.1 = s.1 ++ [c] ∧ t.2 = s.2.filter fun x => x ≠ c) :=
  partial_tour_invariant 2 (by decide) [0] [1] Relation.ReflTransGen.refl

/-- Claim C10: `brute_force` on the empty matrix still runs `traverse`,
whose base case indexes `grid[0][0]` out of bounds (`none`, a panic in the
source); for every well-formed `n × n` matrix with `n ≥ 1` all indexing
succeeds and the search returns a value. -/
theorem index_bounds {α : Type} [LinearOrderedField α] :
    brute_force ([] : List (List α)) = none ∧
    (∀ (n : ℕ) (g : List (List α)), 1 ≤ n → WFGrid g n →
      (brute_force g).isSome = true) := by
  constructor
  · rw [brute_force]
    rw [show List.range' 1 (([] : List (List α)).length - 1) = [] from rfl]
    rw [traverse_nil]
    rfl
  · intro n g hn hg
    obtain ⟨r, htr, -, -⟩ := traverse_min_spec hg (List.range' 1 (n - 1)).length
      (List.range' 1 (n - 1)) [0] f32MAX rfl (List.nodup_range' 1 (n - 1))
      (fun x hx => mem_range'_lt hx)
      (fun x hx => by rw [List.mem_singleton] at hx; omega)
      (List.cons_ne_nil 0 [])
    rw [brute_force, hg.1, htr]
    rfl

/-- Witness for C10: the empty grid gives `none`; the 1×1 grid `[[0]]`
gives a value. -/
theorem index_bounds_witness :
    brute_force ([] : List (List ℚ)) = none ∧
    (brute_force ([[0]] : List (List ℚ))).isSome = true :=
  ⟨(index_bounds).1, (index_bounds).2 1 [[0]] (by decide) ⟨rfl, by simp⟩⟩

/-- Claim C1 fails as stated: on the symmetric non-negative matrix
`[[0, f32MAX], [f32MAX, 0]]` (entries are finite `f32` values) every
Hamiltonian cycle has length `2·f32MAX`, yet the search returns the
sentinel `f32MAX`, which is not the minimum cycle length. -/
theorem brute_force_not_min_counterexample :
    ¬ (∃ r, brute_force ([[0, f32MAX], [f32MAX, 0]] : List (List ℚ)) = some r ∧
        IsLeast {L | ∃ c, IsHamCycle 2 c ∧
          tourLen ([[0, f32MAX], [f32MAX, 0]] : List (List ℚ)) c = L} r) := by
  set g₂ : List (List ℚ) := [[0, f32MAX], [f32MAX, 0]] with hg₂
  intro hcl
  obtain ⟨r, hbf, ⟨hmem, -⟩⟩ := hcl
  have hg : WFGrid g₂ 2 := ⟨rfl, by simp [hg₂]⟩
  obtain ⟨r', htr, hub, hre⟩ := traverse_min_spec hg 1 [1] [0] f32MAX rfl
    (by decide) (by decide) (by decide) (List.cons_ne_nil 0 [])
  have hbf' : brute_force g₂ = traverse [0] [1] f32MAX g₂ := by
    rw [brute_force]
    rfl
  have htl : tourLen g₂ [0, 1] = f32MAX + f32MAX := by
    norm_num [tourLen, entry, hg₂]
  have htl' : tourLen g₂ [1, 0] = f32MAX + f32MAX := by
    norm_num [tourLen, entry, hg₂]
  have hMpos : (0 : ℚ) < f32MAX := by norm_num [f32MAX]
  have hr'le : r' ≤ f32MAX := traverse_le htr
  have hr'MAX : r' = f32MAX := by
    rcases hre with h | ⟨q, hq, hrq⟩
    · exact h
    · rw [List.perm_singleton.mp hq] at hrq
      rw [show (([0] : List ℕ) ++ [1]) = [0, 1] from rfl, htl] at hrq
      exfalso
      rw [hrq] at hr'le
      linarith
  have hrr' : r = r' := by
    have h1 := hbf
    rw [hbf', htr] at h1
    exact (Option.some.inj h1).symm
  obtain ⟨c, hc, hcl2⟩ := hmem
  have hc2 : c = [0, 1] ∨ c = [1, 0] := perm_pair hc
  rcases hc2 with rfl | rfl
  · rw [htl] at hcl2
    rw [hrr', hr'MAX] at hcl2
    linarith
  · rw [htl'] at hcl2
    rw [hrr', hr'MAX] at hcl2
    linarith

/-- Claim C1 (amended): for every symmetric `n × n` matrix with `n ≥ 2`
and non-negative entries, provided at least one Hamiltonian cycle is
shorter than the `f32::MAX` sentinel, `brute_force` returns the minimum,
over all Hamiltonian cycles, of the total cycle length. -/
theorem brute_force_min_hamiltonian {α : Type} [LinearOrderedField α]
    {g : List (List α)} {n : ℕ} (hn : 2 ≤ n) (hg : WFGrid g n)
    (hsymm : ∀ i < n, ∀ j < n, entry g i j = entry g j i)
    (hnonneg : ∀ i < n, ∀ j < n, 0 ≤ entry g i j)
    (hfin : ∃ c, IsHamCycle n c ∧ tourLen g c < f32MAX) :
    ∃ r, brute_force g = some r ∧
      IsLeast {L | ∃ c, IsHamCycle n c ∧ tourLen g c = L} r :=
  brute_force_isLeast_of hn hg (symm_of_bounded hg hsymm) hfin

/-- Witness for amended C1 on the 2×2 matrix `[[0,1],[1,0]]`. -/
theorem brute_force_min_hamiltonian_witness :
    ∃ r, brute_force ([[0, 1], [1, 0]] : List (List ℚ)) = some r ∧
      IsLeast {L | ∃ c, IsHamCycle 2 c ∧
        tourLen ([[0, 1], [1, 0]] : List (List ℚ)) c = L} r :=
  brute_force_min_hamiltonian (by decide) ⟨rfl, by simp⟩ (by decide) (by decide)
    ⟨[0, 1], by rw [IsHamCycle]; decide, by norm_num [tourLen, entry, f32MAX]⟩

/-- Claim C8: for the fixture of 3 cities at `(0,0)`, `(0,3)`, `(4,0)`,
`calculate_edge_grid` followed by `brute_force` returns exactly `12`
(the 3-4-5 right-triangle perimeter). -/
theorem fixture_triangle :
    brute_force (calculate_edge_grid [⟨0, 0⟩, ⟨0, 3⟩, ⟨4, 0⟩]) = some 12 := by
  set pts : List Point := [⟨0, 0⟩, ⟨0, 3⟩, ⟨4, 0⟩] with hpts
  have hlen : pts.length = 3 := rfl
  have hWF : WFGrid (calculate_edge_grid pts) 3 := hlen ▸ ceg_WF pts
  have h0 : (0 : ℕ) < pts.length := by rw [hlen]; omega
  have h1 : (1 : ℕ) < pts.length := by rw [hlen]; omega
  have h2 : (2 : ℕ) < pts.length := by rw [hlen]; omega
  have hsd01 : sqDist (pts.getD 0 ⟨0, 0⟩) (pts.getD 1 ⟨0, 0⟩) = 9 := by
    rw [hpts]
    decide
  have hsd02 : sqDist (pts.getD 0 ⟨0, 0⟩) (pts.getD 2 ⟨0, 0⟩) = 16 := by
    rw [hpts]
    decide
  have hsd12 : sqDist (pts.getD 1 ⟨0, 0⟩) (pts.getD 2 ⟨0, 0⟩) = 25 := by
    rw [hpts]
    decide
  have he01 : entry (calculate_edge_grid pts) 0 1 = 3 := by
    rw [ceg_entry h0 h1, hsd01, show (((9 : ℤ) : ℝ)) = 3 ^ 2 by norm_num,
      Real.sqrt_sq (by norm_num : (0 : ℝ) ≤ 3)]
  have he02 : entry (calculate_edge_grid pts) 0 2 = 4 := by
    rw [ceg_entry h0 h2, hsd02, show (((16 : ℤ) : ℝ)) = 4 ^ 2 by norm_num,
      Real.sqrt_sq (by norm_num : (0 : ℝ) ≤ 4)]
  have he12 : entry (calculate_edge_grid pts) 1 2 = 5 := by
    rw [ceg_entry h1 h2, hsd12, show (((25 : ℤ) : ℝ)) = 5 ^ 2 by norm_num,
      Real.sqrt_sq (by norm_num : (0 : ℝ) ≤ 5)]
  have ht1 : tourLen (calculate_edge_grid pts) [0, 1, 2] = 12 := by
    show entry (calculate_edge_grid pts) 0 2 +
      (entry (calculate_edge_grid pts) 0 1 +
        (entry (calculate_edge_grid pts) 1 2 + 0)) = 12
    rw [he01, he02, he12]
    norm_num
  have ht2 : tourLen (calculate_edge_grid pts) [0, 2, 1] = 12 := by
    show entry (calculate_edge_grid pts) 0 1 +
      (entry (calculate_edge_grid pts) 0 2 +
        (entry (calculate_edge_grid pts) 2 1 + 0)) = 12
    rw [ceg_symm pts 2 1, he01, he02, he12]
    norm_num
  obtain ⟨r, htr, hub, hre⟩ := traverse_min_spec hWF 2 [1, 2] [0] f32MAX rfl
    (by decide) (by decide) (by decide) (List.cons_ne_nil 0 [])
  have hglen : (calculate_edge_grid pts).length = 3 := by
    rw [ceg_length, hlen]
  have hbf : brute_force (calculate_edge_grid pts) =
      traverse [0] [1, 2] f32MAX (calculate_edge_grid pts) := by
    rw [brute_force, hglen]
    rfl
  have hr12 : r ≤ 12 := by
    have h := hub [1, 2] (List.Perm.refl _)
    rwa [show (([0] : List ℕ) ++ [1, 2]) = [0, 1, 2] from rfl, ht1] at h
  have hrMAX : r < f32MAX := lt_of_le_of_lt hr12 (by norm_num [f32MAX])
  rcases hre with h | ⟨q, hq, hrq⟩
  · rw [h] at hrMAX
    exact absurd hrMAX (lt_irrefl _)
  · rcases perm_pair hq with rfl | rfl
    · rw [show (([0] : List ℕ) ++ [1, 2]) = [0, 1, 2] from rfl, ht1] at hrq
      rw [hbf, htr, hrq]
    · rw [show (([0] : List ℕ) ++ [2, 1]) = [0, 2, 1] from rfl, ht2] at hrq
      rw [hbf, htr, hrq]

end TSP
